import Mathlib

/-!
Verification development for the hook_extractor repository.

The repository extracts a component-dependency graph from React source
files (HookExtractor) and visualizes it (App.tsx, MainView.tsx, mark
components).  The visualization layer is embedded here directly from the
TypeScript source; the HookExtractor core (visitDecendent, countDecendent,
toJson, setProject) is not among the provided source files, so those
operations are modelled from the specification, as marked on each
definition.

Entities are addressed by id strings; `children` / `falseChildren` hold id
references, mirroring the id-reference serialization of the graph.
-/

namespace HookExtractorProof

/-- PropEntity of the data model: id (kind "prop"), name, and the list of
reference ids (state / prop / setter ids) passed into this prop. -/
structure PropEntity where
  id : String
  name : String
  references : List String
deriving DecidableEq, Repr

/-- StateEntity of the data model: id (kind "state") and name. -/
structure StateEntity where
  id : String
  name : String
deriving DecidableEq, Repr

/-- EffectEntity of the data model: id (kind "effect"), ordered dependency
ids and handling-target ids. -/
structure EffectEntity where
  id : String
  dependencyIds : List String
  handlingTargetIds : List String
deriving DecidableEq, Repr

/-- ComponentNode (named as in the HookExtractor module imported by
MainView.tsx): one recognized UI component with its owned entities and its
child / false-child component ids. -/
structure ComponentNode where
  id : String
  name : String
  props : List PropEntity
  states : List StateEntity
  effects : List EffectEntity
  children : List String
  falseChildren : List String
deriving DecidableEq, Repr

/-- Graph: the flat componentList of an extraction run. -/
abbrev Graph := List ComponentNode

/-! ## String helpers mirroring the JavaScript string operations used in
the source (`includes`, `endsWith`, `startsWith`, `replace`).  They are
written over the character lists of the strings so that they compute by
structural recursion. -/

/-- Model of JS `String.prototype.replace` with a string pattern: replaces
only the first occurrence of `pat` (scanning left to right); the string is
returned unchanged when `pat` does not occur.  (The JS corner case of an
empty pattern on an empty string is irrelevant here: all patterns used by
the source are nonempty.) -/
def replaceFirstAux (pat rep : List Char) : List Char → List Char
  | [] => []
  | c :: rest =>
    if pat.isPrefixOf (c :: rest) then rep ++ (c :: rest).drop pat.length
    else c :: replaceFirstAux pat rep rest

/-- String-level wrapper of `replaceFirstAux`; models `s.replace(pat, rep)`
of JavaScript for a nonempty string pattern. -/
def replaceFirst (s pat rep : String) : String :=
  ⟨replaceFirstAux pat.data rep.data s.data⟩

/-- Model of JS `String.prototype.startsWith`. -/
def strStartsWith (s pat : String) : Bool :=
  pat.data.isPrefixOf s.data

/-- Model of JS `String.prototype.endsWith`. -/
def strEndsWith (s pat : String) : Bool :=
  pat.data.isSuffixOf s.data

/-- Occurrence check of `pat` as a contiguous sublist: scans every suffix
position for a prefix match. -/
def listIsInfixOf (pat : List Char) : List Char → Bool
  | [] => pat.isEmpty
  | c :: rest => pat.isPrefixOf (c :: rest) || listIsInfixOf pat rest

/-- Model of JS `String.prototype.includes`. -/
def strIncludes (s pat : String) : Bool :=
  listIsInfixOf pat.data s.data

/-! ## File filtering performed by App.tsx before `setProject` (claim C7) -/

/-- One entry of the uploaded FileList as read by App.tsx. -/
structure UploadFile where
  webkitRelativePath : String
  name : String
  content : String
deriving DecidableEq, Repr

/-- Embedding of the selection loop of `handleFileUpload` in App.tsx: a
file is kept for the list handed to `setProject` exactly when its relative
path does not include "node_modules" and its file name ends with ".js" or
".jsx". -/
def handleFileUploadSelect (files : List UploadFile) : List UploadFile :=
  files.filter (fun f =>
    !(strIncludes f.webkitRelativePath "node_modules")
      && (strEndsWith f.name ".js" || strEndsWith f.name ".jsx"))

theorem listIsInfixOf_iff (pat l : List Char) :
    listIsInfixOf pat l = true ↔ ∃ s t, s ++ pat ++ t = l := by
  induction l with
  | nil =>
    simp only [listIsInfixOf, List.isEmpty_iff]
    constructor
    · rintro rfl; exact ⟨[], [], rfl⟩
    · rintro ⟨s, t, hst⟩
      rcases List.append_eq_nil.mp hst with ⟨h1, -⟩
      exact (List.append_eq_nil.mp h1).2
  | cons c rest ih =>
    simp only [listIsInfixOf, Bool.or_eq_true, ih, List.isPrefixOf_iff_prefix]
    constructor
    · rintro (hp | ⟨s, t, rfl⟩)
      · obtain ⟨t, ht⟩ := hp
        exact ⟨[], t, by simpa using ht⟩
      · exact ⟨c :: s, t, rfl⟩
    · rintro ⟨s, t, hst⟩
      cases s with
      | nil =>
        exact Or.inl ⟨t, by simpa using hst⟩
      | cons a s =>
        rw [List.cons_append, List.cons_append] at hst
        injection hst with h1 h2
        subst h1
        exact Or.inr ⟨s, t, by simpa using h2⟩

theorem strEndsWith_iff (s pat : String) :
    strEndsWith s pat = true ↔ ∃ t, t ++ pat.data = s.data := by
  unfold strEndsWith
  rw [List.isSuffixOf_iff_suffix]
  exact Iff.rfl

/-- Claim C7: a file reaches the list passed to `setProject` iff it was
among the uploaded files, its relative path contains no occurrence of
"node_modules", and its name ends with ".js" or ".jsx". -/
theorem handleFileUploadSelect_mem_iff (files : List UploadFile) (f : UploadFile) :
    f ∈ handleFileUploadSelect files ↔
      f ∈ files
      ∧ ¬(∃ s t, s ++ "node_modules".data ++ t = f.webkitRelativePath.data)
      ∧ ((∃ t, t ++ ".js".data = f.name.data) ∨ (∃ t, t ++ ".jsx".data = f.name.data)) := by
  unfold handleFileUploadSelect
  rw [List.mem_filter]
  simp only [Bool.and_eq_true, Bool.or_eq_true, Bool.not_eq_true']
  rw [strEndsWith_iff, strEndsWith_iff]
  constructor
  · rintro ⟨hmem, hni, hsfx⟩
    refine ⟨hmem, ?_, hsfx⟩
    intro hex
    have hinc : strIncludes f.webkitRelativePath "node_modules" = true :=
      (listIsInfixOf_iff _ _).mpr hex
    rw [hinc] at hni
    exact Bool.noConfusion hni
  · rintro ⟨hmem, hni, hsfx⟩
    refine ⟨hmem, ?_, hsfx⟩
    rw [← Bool.not_eq_true]
    intro h
    exact hni ((listIsInfixOf_iff _ _).mp h)

/-! ## Setter-reference id derivation and resolution (claim C2) -/

/-- Resolution step of `convertPropEdges` in MainView.tsx: a setter
reference is mapped back to a state node id by
`ref.replace("setter", "state")`, which replaces only the first occurrence
of "setter". -/
def setterRefToStateNodeId (ref : String) : String :=
  replaceFirst ref "setter" "state"

/-- Modelled from the spec: the serialized setter-reference convention of
the HookExtractor module (absent from the provided sources); the spec's id
convention writes the setter paired with `state-<n>` as `setter-state-<n>`. -/
def setterRefOfStateId (stateId : String) : String :=
  "setter-" ++ stateId

/-- Modelled from the spec: the derivation wording of the data model
section — the setter id is obtained from the state id by substituting the
id's kind tag ("state") with a "setter" tag, keeping the same suffix. -/
def setterIdBySubstitution (stateId : String) : String :=
  replaceFirst stateId "state" "setter"

theorem replaceFirstAux_append (pat rep t : List Char) (hp : pat ≠ []) :
    replaceFirstAux pat rep (pat ++ t) = rep ++ t := by
  cases pat with
  | nil => exact absurd rfl hp
  | cons c p =>
    rw [List.cons_append, replaceFirstAux]
    have hpre : (c :: p).isPrefixOf (c :: (p ++ t)) = true := by
      rw [List.isPrefixOf_iff_prefix]
      exact List.prefix_append _ _
    rw [hpre]
    simp only [if_true, List.length_cons, List.drop_succ_cons, List.drop_left]

theorem replaceFirst_append (p t rep : String) (hp : p.data ≠ []) :
    replaceFirst (p ++ t) p rep = rep ++ t := by
  apply String.ext
  show replaceFirstAux p.data rep.data (p ++ t).data = (rep ++ t).data
  rw [String.data_append, String.data_append]
  exact replaceFirstAux_append p.data rep.data t.data hp

/-- Counterexample for claim C2: with the serialized setter reference
written `setter-state-<n>` (the id convention of the spec), the resolution
performed by `convertPropEdges` — replace the first occurrence of "setter"
by "state" — yields `state-state-<n>`, not the paired state id
`state-<n>`; the derivation followed by this resolution is not the
identity. -/
theorem setterRef_resolution_not_roundtrip :
    setterRefToStateNodeId (setterRefOfStateId "state-0") = "state-state-0"
      ∧ setterRefToStateNodeId (setterRefOfStateId "state-0") ≠ "state-0" := by
  constructor
  · rfl
  · decide

/-- Claim C2 (amended): the resolution of `convertPropEdges` replaces only
the first occurrence of "setter"; it is a round-trip inverse of the
kind-tag-substitution derivation — `state-<n>` to `setter-<n>` and back —
while a reference written `setter-state-<n>` resolves to
`state-state-<n>`, which is not the paired state id. -/
theorem setterRef_resolution_roundtrip (s : String) :
    setterRefToStateNodeId (setterIdBySubstitution ("state-" ++ s)) = "state-" ++ s
      ∧ setterRefToStateNodeId (setterRefOfStateId ("state-" ++ s))
          = "state-state-" ++ s := by
  have hsub : setterIdBySubstitution ("state-" ++ s) = "setter-" ++ s := by
    unfold setterIdBySubstitution
    have h1 : ("state-" : String) ++ s = "state" ++ ("-" ++ s) := rfl
    have h2 : ("setter" : String) ++ ("-" ++ s) = "setter-" ++ s := rfl
    rw [h1, replaceFirst_append _ _ _ (by decide), h2]
  constructor
  · rw [hsub]
    unfold setterRefToStateNodeId
    have h1 : ("setter-" : String) ++ s = "setter" ++ ("-" ++ s) := rfl
    have h2 : ("state" : String) ++ ("-" ++ s) = "state-" ++ s := rfl
    rw [h1, replaceFirst_append _ _ _ (by decide), h2]
  · unfold setterRefToStateNodeId setterRefOfStateId
    have h1 : ("setter-" : String) ++ ("state-" ++ s)
        = "setter" ++ ("-state-" ++ s) := rfl
    have h2 : ("state" : String) ++ ("-state-" ++ s) = "state-state-" ++ s := rfl
    rw [h1, replaceFirst_append _ _ _ (by decide), h2]

/-! ## Descendant traversal (claim C4)

`visitDecendent` lives in the HookExtractor module, which is not among the
provided sources; it is modelled from the specification: apply the visit
function to every component reachable from the start component via
`children` (falseChildren excluded), keeping a visited-id set for the
call so that no component is re-entered or re-emitted.  `visitOrder`
returns the ids in the order the visit function is invoked on them. -/

def allIds (g : Graph) : List String := g.map (fun c => c.id)

def findComponentById (g : Graph) (i : String) : Option ComponentNode :=
  g.find? (fun c => c.id == i)

def childIdsOf (g : Graph) (i : String) : List String :=
  match findComponentById g i with
  | some c => c.children
  | none => []

theorem filter_length_mono {α : Type} {p q : α → Bool} (l : List α)
    (himp : ∀ a, q a = true → p a = true) :
    (l.filter q).length ≤ (l.filter p).length := by
  induction l with
  | nil => simp
  | cons a l ih =>
    by_cases hq : q a = true
    · simp [List.filter_cons, hq, himp a hq]
      omega
    · simp only [List.filter_cons, Bool.not_eq_true] at hq ⊢
      rw [hq]
      simp only [Bool.false_eq_true, if_false]
      by_cases hp : p a = true
      · rw [hp]; simp; omega
      · rw [Bool.not_eq_true] at hp; rw [hp]; simpa using ih

theorem filter_length_lt {α : Type} {p q : α → Bool} {l : List α} {x : α}
    (himp : ∀ a, q a = true → p a = true)
    (hx : x ∈ l) (hpx : p x = true) (hqx : q x = false) :
    (l.filter q).length < (l.filter p).length := by
  induction l with
  | nil => cases hx
  | cons a l ih =>
    rcases List.mem_cons.mp hx with rfl | hxl
    · rw [List.filter_cons, List.filter_cons, hpx, hqx]
      simp only [if_true, Bool.false_eq_true, if_false, List.length_cons]
      exact Nat.lt_succ_of_le (filter_length_mono l himp)
    · rw [List.filter_cons, List.filter_cons]
      by_cases hq : q a = true
      · rw [hq, himp a hq]
        simpa using ih hxl
      · rw [Bool.not_eq_true] at hq; rw [hq]
        simp only [Bool.false_eq_true, if_false]
        by_cases hp : p a = true
        · rw [hp]
          simp only [List.length_cons]
          exact Nat.lt_succ_of_lt (ih hxl)
        · rw [Bool.not_eq_true] at hp; rw [hp]
          simpa using ih hxl

theorem childIdsOf_of_not_mem {g : Graph} {x : String} (hx : x ∉ allIds g) :
    childIdsOf g x = [] := by
  have h : List.find? (fun c => c.id == x) g = none := by
    rw [List.find?_eq_none]
    intro c hc hbeq
    rw [beq_iff_eq] at hbeq
    exact hx (by rw [← hbeq]; exact List.mem_map_of_mem _ hc)
  unfold childIdsOf findComponentById
  rw [h]

/-- Modelled from the spec: worklist form of `visitDecendent` of the
HookExtractor module (absent from the provided sources).  The worklist
holds ids still to visit; an id already in the visited list is skipped,
otherwise it is emitted and its children are pushed.  Termination measure:
the number of graph ids not yet visited, then the worklist length. -/
def visitAux (g : Graph) (visited stack : List String) : List String :=
  match stack with
  | [] => visited
  | x :: rest =>
    if visited.contains x then visitAux g visited rest
    else visitAux g (visited ++ [x]) (childIdsOf g x ++ rest)
termination_by (((allIds g).filter (fun i => !(visited.contains i))).length, stack.length)
decreasing_by
  · exact Prod.Lex.right _ (Nat.lt_succ_self _)
  · rename_i hvx
    by_cases hmem : x ∈ allIds g
    · apply Prod.Lex.left
      apply filter_length_lt (x := x) ?imp hmem ?hp ?hq
      case imp =>
        intro a ha
        simp only [List.contains, List.elem_eq_mem, Bool.not_eq_true',
          decide_eq_false_iff_not, List.mem_append, not_or] at ha ⊢
        exact ha.1
      case hp =>
        simp only [List.contains, List.elem_eq_mem] at hvx ⊢
        simpa using hvx
      case hq =>
        simp [List.contains, List.elem_eq_mem]
    · have hc : childIdsOf g x = [] := childIdsOf_of_not_mem hmem
      have hf : List.filter (fun i => !(visited ++ [x]).contains i) (allIds g)
          = List.filter (fun i => !visited.contains i) (allIds g) := by
        apply List.filter_congr
        intro a ha
        have hax : a ≠ x := fun h => hmem (h ▸ ha)
        simp [List.contains, List.elem_eq_mem, hax]
      rw [hc, hf]
      exact Prod.Lex.right _ (Nat.lt_succ_self _)

/-- Modelled from the spec: the ids on which `visitDecendent(component, f)`
invokes `f`, in invocation order. -/
def visitOrder (g : Graph) (c : ComponentNode) : List String :=
  visitAux g [] c.children

/-- Modelled from the spec: `countDecendent(component)` — the number of
distinct descendants reachable via `children`, computed with the same
cycle-safety rule as the traversal. -/
def countDecendent (g : Graph) (c : ComponentNode) : Nat :=
  (visitOrder g c).length

/-- Reachability in one or more `children` steps: the proper descendants
of a node id. -/
inductive Reaches (g : Graph) : String → String → Prop
  | step {x y : String} : y ∈ childIdsOf g x → Reaches g x y
  | tail {x y z : String} : Reaches g x y → z ∈ childIdsOf g y → Reaches g x z

theorem visitAux_visited_subset (g : Graph) (visited stack : List String) :
    ∀ v ∈ visited, v ∈ visitAux g visited stack := by
  induction visited, stack using visitAux.induct g with
  | case1 visited =>
    intro v hv
    rw [visitAux]
    exact hv
  | case2 visited x rest hx ih =>
    intro v hv
    rw [visitAux, if_pos hx]
    exact ih v hv
  | case3 visited x rest hx ih =>
    intro v hv
    rw [visitAux, if_neg hx]
    exact ih v (List.mem_append_left _ hv)

theorem visitAux_stack_subset (g : Graph) (visited stack : List String) :
    ∀ s ∈ stack, s ∈ visitAux g visited stack := by
  induction visited, stack using visitAux.induct g with
  | case1 visited =>
    intro s hs
    cases hs
  | case2 visited x rest hx ih =>
    intro s hs
    rw [visitAux, if_pos hx]
    rcases List.mem_cons.mp hs with rfl | hs2
    · refine visitAux_visited_subset g visited rest s ?_
      simpa [List.contains, List.elem_eq_mem] using hx
    · exact ih s hs2
  | case3 visited x rest hx ih =>
    intro s hs
    rw [visitAux, if_neg hx]
    rcases List.mem_cons.mp hs with rfl | hs2
    · exact visitAux_visited_subset g (visited ++ [s]) _ s (by simp)
    · exact ih s (List.mem_append_right _ hs2)

theorem visitAux_nodup (g : Graph) (visited stack : List String)
    (h : visited.Nodup) : (visitAux g visited stack).Nodup := by
  induction visited, stack using visitAux.induct g with
  | case1 visited =>
    rw [visitAux]
    exact h
  | case2 visited x rest hx ih =>
    rw [visitAux, if_pos hx]
    exact ih h
  | case3 visited x rest hx ih =>
    rw [visitAux, if_neg hx]
    refine ih ?_
    rw [List.nodup_append]
    refine ⟨h, List.nodup_singleton x, ?_⟩
    intro a ha hax
    rw [List.mem_singleton] at hax
    subst hax
    exact hx (by simpa [List.contains, List.elem_eq_mem] using ha)

theorem visitAux_closed (g : Graph) (visited stack : List String)
    (hinv : ∀ v ∈ visited, ∀ y ∈ childIdsOf g v, y ∈ visited ∨ y ∈ stack) :
    ∀ v ∈ visitAux g visited stack, ∀ y ∈ childIdsOf g v,
      y ∈ visitAux g visited stack := by
  induction visited, stack using visitAux.induct g with
  | case1 visited =>
    rw [visitAux]
    intro v hv y hy
    rcases hinv v hv y hy with h | h
    · exact h
    · cases h
  | case2 visited x rest hx ih =>
    rw [visitAux, if_pos hx]
    refine ih ?_
    intro v hv y hy
    rcases hinv v hv y hy with h | h
    · exact Or.inl h
    · rcases List.mem_cons.mp h with rfl | h2
      · exact Or.inl (by simpa [List.contains, List.elem_eq_mem] using hx)
      · exact Or.inr h2
  | case3 visited x rest hx ih =>
    rw [visitAux, if_neg hx]
    refine ih ?_
    intro v hv y hy
    rcases List.mem_append.mp hv with hv2 | hv2
    · rcases hinv v hv2 y hy with h | h
      · exact Or.inl (List.mem_append_left _ h)
      · rcases List.mem_cons.mp h with rfl | h2
        · exact Or.inl (List.mem_append_right _ (by simp))
        · exact Or.inr (List.mem_append_right _ h2)
    · rw [List.mem_singleton] at hv2
      subst hv2
      exact Or.inr (List.mem_append_left _ hy)

theorem visitAux_sound (g : Graph) (R : String → Prop) (visited stack : List String)
    (hR : ∀ x, R x → ∀ y ∈ childIdsOf g x, R y)
    (hv : ∀ v ∈ visited, R v) (hs : ∀ s ∈ stack, R s) :
    ∀ v ∈ visitAux g visited stack, R v := by
  induction visited, stack using visitAux.induct g with
  | case1 visited =>
    rw [visitAux]
    exact hv
  | case2 visited x rest hx ih =>
    rw [visitAux, if_pos hx]
    exact ih hv (fun s hs2 => hs s (List.mem_cons_of_mem _ hs2))
  | case3 visited x rest hx ih =>
    rw [visitAux, if_neg hx]
    have hRx : R x := hs x (List.mem_cons_self x rest)
    refine ih ?_ ?_
    · intro v hv2
      rcases List.mem_append.mp hv2 with h | h
      · exact hv v h
      · rw [List.mem_singleton] at h
        subst h
        exact hRx
    · intro s hs2
      rcases List.mem_append.mp hs2 with h | h
      · exact hR x hRx s h
      · exact hs s (List.mem_cons_of_mem _ h)

theorem findComponentById_self (g : Graph) (hnd : (allIds g).Nodup)
    {c : ComponentNode} (hc : c ∈ g) : findComponentById g c.id = some c := by
  induction g with
  | nil => cases hc
  | cons a g ih =>
    rcases List.mem_cons.mp hc with rfl | hcg
    · unfold findComponentById
      rw [List.find?_cons_of_pos _ (by simp)]
    · have hane : (a.id == c.id) = false := by
        rw [beq_eq_false_iff_ne]
        intro hid
        have : c.id ∈ allIds g := List.mem_map_of_mem _ hcg
        rw [← hid] at this
        exact (List.nodup_cons.mp hnd).1 this
      unfold findComponentById at ih ⊢
      rw [List.find?_cons_of_neg _ (by simp [hane])]
      exact ih (List.nodup_cons.mp hnd).2 hcg

theorem childIdsOf_self (g : Graph) (hnd : (allIds g).Nodup)
    {c : ComponentNode} (hc : c ∈ g) : childIdsOf g c.id = c.children := by
  unfold childIdsOf
  rw [findComponentById_self g hnd hc]

theorem visitOrder_mem_iff (g : Graph) (c : ComponentNode)
    (hnd : (allIds g).Nodup) (hc : c ∈ g) :
    ∀ x, x ∈ visitOrder g c ↔ Reaches g c.id x := by
  have hch : childIdsOf g c.id = c.children := childIdsOf_self g hnd hc
  intro x
  constructor
  · intro hx
    refine visitAux_sound g (Reaches g c.id) [] c.children ?_ ?_ ?_ x hx
    · intro a hRa y hy
      exact Reaches.tail hRa hy
    · intro v hv
      cases hv
    · intro s hs
      exact Reaches.step (hch ▸ hs)
  · intro hr
    induction hr with
    | step hy =>
      exact visitAux_stack_subset g [] c.children _ (hch ▸ hy)
    | tail hr hz ih =>
      exact visitAux_closed g [] c.children (by intro v hv; cases hv) _ ih _ hz

/-- Claim C4: the modelled `visitDecendent` terminates on every graph
(it is a total function) and invokes the visit function exactly once on
each component reachable from the start component via `children`
(falseChildren excluded): the emitted id list has no duplicates, and an id
is emitted iff it is reachable in one or more `children` steps — so a
component already visited in the call is not re-emitted, regardless of how
many parents reference it or of cycles. -/
theorem visitDecendent_spec (g : Graph) (c : ComponentNode)
    (hnd : (allIds g).Nodup) (hc : c ∈ g) :
    (visitOrder g c).Nodup ∧ ∀ x, x ∈ visitOrder g c ↔ Reaches g c.id x :=
  ⟨visitAux_nodup g [] c.children List.nodup_nil, visitOrder_mem_iff g c hnd hc⟩

/-- Component A of the intentional two-cycle test graph; C is attached as
a false child of A to witness that falseChildren are excluded. -/
def compA : ComponentNode :=
  ⟨"component-0", "A", [], [], [], ["component-1"], ["component-2"]⟩

def compB : ComponentNode :=
  ⟨"component-1", "B", [], [], [], ["component-0"], []⟩

def compC : ComponentNode :=
  ⟨"component-2", "C", [], [], [], [], []⟩

def cycleGraph : Graph := [compA, compB, compC]

/-- Witness for claim C4 at the intentional cycle (A child of B, B child
of A). -/
theorem visitDecendent_spec_witness :
    (allIds cycleGraph).Nodup ∧ compA ∈ cycleGraph
      ∧ ((visitOrder cycleGraph compA).Nodup
          ∧ ∀ x, x ∈ visitOrder cycleGraph compA ↔ Reaches cycleGraph compA.id x) :=
  ⟨by decide, by decide, visitDecendent_spec cycleGraph compA (by decide) (by decide)⟩

/-! ## Root discovery (claim C1): `findRoots` of MainView.tsx -/

/-- Accumulated visited-id list of the first loop of `findRoots` in
MainView.tsx: for each component in order, skip it when already visited,
otherwise push every id visited by `visitDecendent` started there. -/
def findRootsVisited (g : Graph) : List String :=
  g.foldl
    (fun visited component =>
      if visited.contains component.id then visited
      else visited ++ visitOrder g component)
    []

/-- Embedding of `findRoots` of MainView.tsx: the components whose id was
never pushed to the visited list. -/
def findRoots (g : Graph) : List ComponentNode :=
  g.filter (fun component => !(findRootsVisited g).contains component.id)

/-- An id list closed under the `children` relation of the graph. -/
def IdSetClosed (g : Graph) (l : List String) : Prop :=
  ∀ v ∈ l, ∀ y ∈ childIdsOf g v, y ∈ l

theorem visitOrder_closed (g : Graph) (c : ComponentNode) :
    IdSetClosed g (visitOrder g c) := by
  intro v hv y hy
  exact visitAux_closed g [] c.children (by intro w hw; cases hw) v hv y hy

theorem IdSetClosed.reaches_mem {g : Graph} {l : List String}
    (hcl : IdSetClosed g l) {x y : String} (hx : x ∈ l)
    (hr : Reaches g x y) : y ∈ l := by
  induction hr with
  | step hy => exact hcl _ hx _ hy
  | tail hr hz ih => exact hcl _ ih _ hz

theorem IdSetClosed.append {g : Graph} {l l₂ : List String}
    (h1 : IdSetClosed g l) (h2 : IdSetClosed g l₂) :
    IdSetClosed g (l ++ l₂) := by
  intro v hv y hy
  rcases List.mem_append.mp hv with h | h
  · exact List.mem_append_left _ (h1 v h y hy)
  · exact List.mem_append_right _ (h2 v h y hy)

theorem findRootsFold_mono (g : Graph) (gs : List ComponentNode)
    (acc : List String) :
    ∀ x ∈ acc,
      x ∈ gs.foldl
        (fun visited component =>
          if visited.contains component.id then visited
          else visited ++ visitOrder g component)
        acc := by
  induction gs generalizing acc with
  | nil => intro x hx; exact hx
  | cons c gs ih =>
    intro x hx
    rw [List.foldl_cons]
    by_cases hc : acc.contains c.id
    · rw [if_pos hc]
      exact ih acc x hx
    · rw [if_neg hc]
      exact ih _ x (List.mem_append_left _ hx)

theorem findRootsFold_sound (g : Graph) (hnd : (allIds g).Nodup)
    (gs : List ComponentNode) (acc : List String)
    (hgs : ∀ d ∈ gs, d ∈ g)
    (hacc : ∀ x ∈ acc, ∃ d ∈ g, Reaches g d.id x) :
    ∀ x ∈ gs.foldl
        (fun visited component =>
          if visited.contains component.id then visited
          else visited ++ visitOrder g component)
        acc,
      ∃ d ∈ g, Reaches g d.id x := by
  induction gs generalizing acc with
  | nil => intro x hx; exact hacc x hx
  | cons c gs ih =>
    intro x hx
    rw [List.foldl_cons] at hx
    by_cases hc : acc.contains c.id
    · rw [if_pos hc] at hx
      exact ih acc (fun d hd => hgs d (List.mem_cons_of_mem _ hd)) hacc x hx
    · rw [if_neg hc] at hx
      refine ih _ (fun d hd => hgs d (List.mem_cons_of_mem _ hd)) ?_ x hx
      intro y hy
      rcases List.mem_append.mp hy with h | h
      · exact hacc y h
      · have hcg : c ∈ g := hgs c (List.mem_cons_self c gs)
        exact ⟨c, hcg, (visitOrder_mem_iff g c hnd hcg y).mp h⟩

theorem findRootsFold_complete (g : Graph) (hnd : (allIds g).Nodup)
    (gs : List ComponentNode) (acc : List String)
    (hgs : ∀ d ∈ gs, d ∈ g) (hcl : IdSetClosed g acc) :
    IdSetClosed g
        (gs.foldl
          (fun visited component =>
            if visited.contains component.id then visited
            else visited ++ visitOrder g component)
          acc)
      ∧ ∀ d ∈ gs, ∀ x, Reaches g d.id x →
          x ∈ gs.foldl
            (fun visited component =>
              if visited.contains component.id then visited
              else visited ++ visitOrder g component)
            acc := by
  induction gs generalizing acc with
  | nil =>
    refine ⟨hcl, ?_⟩
    intro d hd
    cases hd
  | cons c gs ih =>
    have hcg : c ∈ g := hgs c (List.mem_cons_self c gs)
    have hgs2 : ∀ d ∈ gs, d ∈ g := fun d hd => hgs d (List.mem_cons_of_mem _ hd)
    rw [List.foldl_cons]
    by_cases hc : acc.contains c.id
    · rw [if_pos hc]
      obtain ⟨hcl2, hcompl⟩ := ih acc hgs2 hcl
      refine ⟨hcl2, ?_⟩
      intro d hd x hr
      rcases List.mem_cons.mp hd with rfl | hd2
      · have hmem : d.id ∈ acc := by
          simpa [List.contains, List.elem_eq_mem] using hc
        exact findRootsFold_mono g gs acc x (hcl.reaches_mem hmem hr)
      · exact hcompl d hd2 x hr
    · rw [if_neg hc]
      have hcl3 : IdSetClosed g (acc ++ visitOrder g c) :=
        hcl.append (visitOrder_closed g c)
      obtain ⟨hcl2, hcompl⟩ := ih _ hgs2 hcl3
      refine ⟨hcl2, ?_⟩
      intro d hd x hr
      rcases List.mem_cons.mp hd with rfl | hd2
      · have hx : x ∈ acc ++ visitOrder g d :=
          List.mem_append_right _ ((visitOrder_mem_iff g d hnd hcg x).mpr hr)
        exact findRootsFold_mono g gs _ x hx
      · exact hcompl d hd2 x hr

theorem findRootsVisited_mem_iff (g : Graph) (hnd : (allIds g).Nodup) :
    ∀ x, x ∈ findRootsVisited g ↔ ∃ d ∈ g, Reaches g d.id x := by
  intro x
  constructor
  · intro hx
    exact findRootsFold_sound g hnd g [] (fun d hd => hd) (by intro y hy; cases hy) x hx
  · rintro ⟨d, hd, hr⟩
    exact (findRootsFold_complete g hnd g [] (fun d hd => hd)
      (by intro v hv; cases hv)).2 d hd x hr

/-- Claim C1 (amended): a component is listed as a root by `findRoots` iff
it is never visited during the full traversal, i.e. iff it is not a proper
`children`-descendant of any component in componentList (itself included);
consequently every component is a root XOR it is reachable as a
`children`-descendant of some component in componentList. -/
theorem findRoots_spec (g : Graph) (hnd : (allIds g).Nodup) :
    ∀ c ∈ g,
      (c ∈ findRoots g ↔ ¬∃ d ∈ g, Reaches g d.id c.id)
        ∧ Xor' (c ∈ findRoots g) (∃ d ∈ g, Reaches g d.id c.id) := by
  intro c hc
  have hiff : c ∈ findRoots g ↔ ¬∃ d ∈ g, Reaches g d.id c.id := by
    unfold findRoots
    rw [List.mem_filter]
    constructor
    · rintro ⟨-, hnc⟩
      intro hex
      have : c.id ∈ findRootsVisited g := (findRootsVisited_mem_iff g hnd c.id).mpr hex
      simp [List.contains, List.elem_eq_mem, this] at hnc
    · intro hnex
      refine ⟨hc, ?_⟩
      have : c.id ∉ findRootsVisited g :=
        fun hmem => hnex ((findRootsVisited_mem_iff g hnd c.id).mp hmem)
      simp [List.contains, List.elem_eq_mem, this]
  refine ⟨hiff, ?_⟩
  by_cases hex : ∃ d ∈ g, Reaches g d.id c.id
  · exact Or.inr ⟨hex, fun hroot => (hiff.mp hroot) hex⟩
  · exact Or.inl ⟨hiff.mpr hex, hex⟩

/-- The self-rendering component: its only child is itself. -/
def selfComp : ComponentNode :=
  ⟨"component-0", "A", [], [], [], ["component-0"], []⟩

def selfLoopGraph : Graph := [selfComp]

/-- Witness for claim C1 (amended) at the self-loop graph. -/
theorem findRoots_spec_witness :
    (allIds selfLoopGraph).Nodup
      ∧ ((selfComp ∈ findRoots selfLoopGraph
            ↔ ¬∃ d ∈ selfLoopGraph, Reaches selfLoopGraph d.id selfComp.id)
          ∧ Xor' (selfComp ∈ findRoots selfLoopGraph)
              (∃ d ∈ selfLoopGraph, Reaches selfLoopGraph d.id selfComp.id)) :=
  ⟨by decide, findRoots_spec selfLoopGraph (by decide) selfComp (by decide)⟩

/-- Counterexample for claim C1 as stated: in the one-component graph
whose component renders itself, the component is never visited as a
descendant of any OTHER component (there is none), so the claim lists it
as a root and its root-XOR-reachable-from-a-root disjunction requires a
root to exist; but `findRoots` returns the empty list, because the
traversal started at the component reaches the component itself through
the cycle. -/
theorem findRoots_claim_counterexample :
    selfLoopGraph = [selfComp]
      ∧ findRoots selfLoopGraph = []
      ∧ (∀ d ∈ selfLoopGraph, d.id ≠ selfComp.id
            → selfComp.id ∉ visitOrder selfLoopGraph d)
      ∧ ¬(selfComp ∈ findRoots selfLoopGraph
            ∨ ∃ r ∈ findRoots selfLoopGraph, selfComp.id ∈ visitOrder selfLoopGraph r) := by
  have hvo : visitOrder selfLoopGraph selfComp = ["component-0"] := by
    simp +decide [visitOrder, visitAux, childIdsOf, findComponentById,
      selfLoopGraph, selfComp, List.find?]
  have hfrv : findRootsVisited selfLoopGraph = ["component-0"] := by
    unfold findRootsVisited
    have h1 : selfLoopGraph = [selfComp] := rfl
    rw [h1, List.foldl_cons, List.foldl_nil, if_neg (by decide), List.nil_append,
      ← h1, hvo]
  have hfr : findRoots selfLoopGraph = [] := by
    unfold findRoots
    rw [hfrv]
    decide
  refine ⟨rfl, hfr, ?_, ?_⟩
  · intro d hd hne
    rcases List.mem_cons.mp hd with rfl | h
    · exact absurd rfl hne
    · cases h
  · rintro (h | ⟨r, hr, -⟩)
    · rw [hfr] at h
      cases h
    · rw [hfr] at hr
      cases hr

/-! ## Child ordering in convertComponentToMark (claims C5 and C3)

convertComponentToMark (MainView.tsx) executes
`node.children.sort((a, b) => countDecendent(b) - countDecendent(a))`:
a stable sort (JS Array.prototype.sort, ES2019 and later) by descendant
count, descending, applied IN PLACE to the children array of the graph
entity.  `sortDesc` embeds the resulting order: a stable insertion sort,
descending by key. -/

def insertDesc {α : Type} (key : α → Nat) (x : α) : List α → List α
  | [] => [x]
  | y :: ys => if key y ≤ key x then x :: y :: ys else y :: insertDesc key x ys

def sortDesc {α : Type} (key : α → Nat) : List α → List α
  | [] => []
  | x :: xs => insertDesc key x (sortDesc key xs)

theorem insertDesc_perm {α : Type} (key : α → Nat) (x : α) (l : List α) :
    (insertDesc key x l).Perm (x :: l) := by
  induction l with
  | nil => exact List.Perm.refl _
  | cons y ys ih =>
    rw [insertDesc]
    by_cases h : key y ≤ key x
    · rw [if_pos h]
    · rw [if_neg h]
      exact (ih.cons y).trans (List.Perm.swap x y ys)

theorem sortDesc_perm {α : Type} (key : α → Nat) (l : List α) :
    (sortDesc key l).Perm l := by
  induction l with
  | nil => exact List.Perm.refl _
  | cons x xs ih =>
    rw [sortDesc]
    exact (insertDesc_perm key x (sortDesc key xs)).trans (ih.cons x)

theorem insertDesc_sorted {α : Type} (key : α → Nat) (x : α) (l : List α)
    (h : l.Pairwise (fun a b => key b ≤ key a)) :
    (insertDesc key x l).Pairwise (fun a b => key b ≤ key a) := by
  induction l with
  | nil => simp [insertDesc]
  | cons y ys ih =>
    rw [insertDesc]
    rcases List.pairwise_cons.mp h with ⟨hy, hys⟩
    by_cases hle : key y ≤ key x
    · rw [if_pos hle]
      refine List.pairwise_cons.mpr ⟨?_, h⟩
      intro a ha
      rcases List.mem_cons.mp ha with rfl | ha2
      · exact hle
      · exact (hy a ha2).trans hle
    · rw [if_neg hle]
      refine List.pairwise_cons.mpr ⟨?_, ih hys⟩
      intro a ha
      have ha3 : a ∈ x :: ys := (insertDesc_perm key x ys).mem_iff.mp ha
      rcases List.mem_cons.mp ha3 with rfl | ha4
      · exact Nat.le_of_not_le hle
      · exact hy a ha4

theorem sortDesc_sorted {α : Type} (key : α → Nat) (l : List α) :
    (sortDesc key l).Pairwise (fun a b => key b ≤ key a) := by
  induction l with
  | nil => simp [sortDesc]
  | cons x xs ih =>
    rw [sortDesc]
    exact insertDesc_sorted key x _ ih

theorem insertDesc_filter_eq {α : Type} (key : α → Nat) (x : α) (l : List α)
    (k : Nat) :
    (insertDesc key x l).filter (fun a => key a == k)
      = if key x == k then x :: l.filter (fun a => key a == k)
        else l.filter (fun a => key a == k) := by
  induction l with
  | nil =>
    rw [insertDesc]
    by_cases hk : key x == k
    · rw [if_pos hk]
      simp [List.filter_cons, hk]
    · rw [if_neg hk]
      simp only [Bool.not_eq_true] at hk
      simp [List.filter_cons, hk]
  | cons y ys ih =>
    rw [insertDesc]
    by_cases hle : key y ≤ key x
    · rw [if_pos hle]
      by_cases hk : key x == k
      · rw [if_pos hk, List.filter_cons, hk]
        simp
      · rw [if_neg hk]
        simp only [Bool.not_eq_true] at hk
        rw [List.filter_cons, hk]
        simp
    · rw [if_neg hle]
      have hxy : key x < key y := Nat.lt_of_not_le hle
      by_cases hk : key x == k
      · rw [if_pos hk]
        have hyk : (key y == k) = false := by
          rw [beq_eq_false_iff_ne]
          rw [beq_iff_eq] at hk
          omega
        rw [List.filter_cons, hyk, List.filter_cons, hyk]
        simp only [Bool.false_eq_true, if_false]
        rw [ih, if_pos hk]
      · rw [if_neg hk]
        rw [List.filter_cons, List.filter_cons]
        rw [ih, if_neg hk]

theorem sortDesc_filter_stable {α : Type} (key : α → Nat) (l : List α) (k : Nat) :
    (sortDesc key l).filter (fun a => key a == k)
      = l.filter (fun a => key a == k) := by
  induction l with
  | nil => rw [sortDesc]
  | cons x xs ih =>
    rw [sortDesc, insertDesc_filter_eq]
    by_cases hk : key x == k
    · rw [if_pos hk, ih, List.filter_cons, hk]
      simp
    · rw [if_neg hk, ih, List.filter_cons]
      simp only [Bool.not_eq_true] at hk
      rw [hk]
      simp

/-- Sort key used by convertComponentToMark for one child: the descendant
count of the referenced child component (the code holds the child object
directly; this id-based embedding looks it up first). -/
def childDescKey (g : Graph) (i : String) : Nat :=
  match findComponentById g i with
  | some c => countDecendent g c
  | none => 0

/-- Embedding of the children order produced by
`node.children.sort((a, b) => countDecendent(b) - countDecendent(a))` in
convertComponentToMark. -/
def convertChildrenOrder (g : Graph) (c : ComponentNode) : List String :=
  sortDesc (childDescKey g) c.children

/-- Claim C5: after convertComponentToMark processes a component, its
children are ordered by descendant count descending, the result is a
permutation of the previous children, and the sort is stable — children
with equal descendant counts keep their previous (discovery) order, stated
as the per-key filter being unchanged. -/
theorem convertComponentToMark_children_sorted (g : Graph) (c : ComponentNode) :
    (convertChildrenOrder g c).Pairwise
        (fun a b => childDescKey g b ≤ childDescKey g a)
      ∧ (∀ k, (convertChildrenOrder g c).filter (fun a => childDescKey g a == k)
          = c.children.filter (fun a => childDescKey g a == k))
      ∧ (convertChildrenOrder g c).Perm c.children :=
  ⟨sortDesc_sorted _ _, fun k => sortDesc_filter_stable _ _ k, sortDesc_perm _ _⟩

def leafA : ComponentNode := ⟨"component-1", "A", [], [], [], [], []⟩

def nodeB : ComponentNode := ⟨"component-2", "B", [], [], [], ["component-3"], []⟩

def leafD : ComponentNode := ⟨"component-3", "D", [], [], [], [], []⟩

def rootR : ComponentNode :=
  ⟨"component-0", "R", [], [], [], ["component-1", "component-2"], []⟩

def mutGraph : Graph := [rootR, leafA, nodeB, leafD]

/-- Claim C3 refuted by the code: convertComponentToMark sorts
`node.children` in place (JS Array.prototype.sort mutates the array), so
after the visualization pass the children order of R — [A, B] at assembly,
with A having 0 descendants and B having 1 — has become [B, A], different
from its order before. -/
theorem convertComponentToMark_mutates_children :
    convertChildrenOrder mutGraph rootR = ["component-2", "component-1"]
      ∧ convertChildrenOrder mutGraph rootR ≠ rootR.children := by
  have h : convertChildrenOrder mutGraph rootR = ["component-2", "component-1"] := by
    simp +decide [convertChildrenOrder, sortDesc, insertDesc, childDescKey,
      countDecendent, visitOrder, visitAux, childIdsOf, findComponentById,
      mutGraph, rootR, leafA, nodeB, leafD, List.find?]
  refine ⟨h, ?_⟩
  rw [h]
  decide

/-! ## Effect edges (claim C9): convertEffectEdges of MainView.tsx -/

/-- Edge record of the flow view; only the routing fields of the edges
built by MainView.tsx are modelled (styling, animation and marker fields
are display-only). -/
structure FlowEdge where
  id : String
  source : String
  target : String
deriving DecidableEq, Repr

/-- Embedding of convertEffectEdges (MainView.tsx): for each effect of the
component, one edge per dependency id — source the dependency, target the
effect — followed by one edge per handling-target id — source the effect,
target the handling target; the edge id is the effect id, a hyphen, and
the other id. -/
def convertEffectEdges (component : ComponentNode) : List FlowEdge :=
  component.effects.flatMap (fun effect =>
    effect.dependencyIds.map (fun depId =>
      { id := effect.id ++ "-" ++ depId, source := depId, target := effect.id })
      ++ effect.handlingTargetIds.map (fun targetId =>
        { id := effect.id ++ "-" ++ targetId, source := effect.id,
          target := targetId }))

/-- Claim C9 (amended): convertEffectEdges yields exactly one edge per
dependency entry, directed dependency-to-effect, and one edge per
handling-target entry, directed effect-to-target, so the edge count is the
sum over effects of the two list lengths; and — provided effect ids carry
the "effect" kind prefix, dependency and handling-target ids do not, and
each effect's dependencyIds and handlingTargetIds are disjoint — no edge
runs from an effect to one of its dependencies nor from one of its
handling targets into it. -/
theorem convertEffectEdges_spec (component : ComponentNode)
    (hkind : ∀ e ∈ component.effects, strStartsWith e.id "effect" = true)
    (hother : ∀ e ∈ component.effects,
      ∀ x ∈ e.dependencyIds ++ e.handlingTargetIds,
        strStartsWith x "effect" = false)
    (huniq : ∀ e ∈ component.effects, ∀ f ∈ component.effects,
      e.id = f.id → e = f)
    (hdisj : ∀ e ∈ component.effects, ∀ x ∈ e.dependencyIds,
      x ∉ e.handlingTargetIds) :
    (convertEffectEdges component).length
        = (component.effects.map
            (fun e => e.dependencyIds.length + e.handlingTargetIds.length)).sum
      ∧ (∀ e ∈ component.effects,
          (∀ d ∈ e.dependencyIds,
            ({ id := e.id ++ "-" ++ d, source := d, target := e.id } : FlowEdge)
              ∈ convertEffectEdges component)
          ∧ ∀ t ∈ e.handlingTargetIds,
            ({ id := e.id ++ "-" ++ t, source := e.id, target := t } : FlowEdge)
              ∈ convertEffectEdges component)
      ∧ (∀ ed ∈ convertEffectEdges component, ∃ e ∈ component.effects,
          (ed.source ∈ e.dependencyIds ∧ ed.target = e.id)
            ∨ (ed.source = e.id ∧ ed.target ∈ e.handlingTargetIds))
      ∧ (∀ e ∈ component.effects, ∀ ed ∈ convertEffectEdges component,
          ¬(ed.source = e.id ∧ ed.target ∈ e.dependencyIds)
            ∧ ¬(ed.source ∈ e.handlingTargetIds ∧ ed.target = e.id)) := by
  have hchar : ∀ ed ∈ convertEffectEdges component, ∃ e ∈ component.effects,
      (ed.source ∈ e.dependencyIds ∧ ed.target = e.id)
        ∨ (ed.source = e.id ∧ ed.target ∈ e.handlingTargetIds) := by
    intro ed hed
    rw [convertEffectEdges, List.mem_flatMap] at hed
    obtain ⟨e, he, hmem⟩ := hed
    refine ⟨e, he, ?_⟩
    rcases List.mem_append.mp hmem with h | h
    · obtain ⟨d, hd, rfl⟩ := List.mem_map.mp h
      exact Or.inl ⟨hd, rfl⟩
    · obtain ⟨t, ht, rfl⟩ := List.mem_map.mp h
      exact Or.inr ⟨rfl, ht⟩
  refine ⟨?_, ?_, hchar, ?_⟩
  · rw [convertEffectEdges, List.length_flatMap]
    congr 1
    apply List.map_congr_left
    intro e he
    simp
  · intro e he
    constructor
    · intro d hd
      rw [convertEffectEdges, List.mem_flatMap]
      exact ⟨e, he, List.mem_append_left _ (List.mem_map_of_mem _ hd)⟩
    · intro t ht
      rw [convertEffectEdges, List.mem_flatMap]
      exact ⟨e, he, List.mem_append_right _ (List.mem_map_of_mem _ ht)⟩
  · intro e he ed hed
    obtain ⟨f, hf, hcase⟩ := hchar ed hed
    constructor
    · rintro ⟨hsrc, htgt⟩
      rcases hcase with ⟨hds, hdt⟩ | ⟨hts, htt⟩
      · have h1 : strStartsWith ed.source "effect" = false :=
          hother f hf ed.source (List.mem_append_left _ hds)
        rw [hsrc] at h1
        rw [hkind e he] at h1
        exact Bool.noConfusion h1
      · have hef : e = f := huniq e he f hf (hsrc.symm.trans hts)
        subst hef
        exact hdisj e he ed.target htgt htt
    · rintro ⟨hsrc, htgt⟩
      rcases hcase with ⟨hds, hdt⟩ | ⟨hts, htt⟩
      · have hef : e = f := huniq e he f hf (htgt.symm.trans hdt)
        subst hef
        exact hdisj e he ed.source hds hsrc
      · have h1 : strStartsWith ed.source "effect" = false :=
          hother e he ed.source (List.mem_append_right _ hsrc)
        rw [hts] at h1
        rw [hkind f hf] at h1
        exact Bool.noConfusion h1

def effectSetCount : ComponentNode :=
  ⟨"component-0", "Counter",
    [⟨"prop-0", "onTick", []⟩],
    [⟨"state-0", "count"⟩],
    [⟨"effect-0", ["prop-0", "state-0"], ["setter-0"]⟩],
    [], []⟩

/-- Witness for claim C9 (amended) at a component with one effect reading
a prop and a state and invoking a setter. -/
theorem convertEffectEdges_spec_witness :
    (∀ e ∈ effectSetCount.effects, strStartsWith e.id "effect" = true)
      ∧ ((convertEffectEdges effectSetCount).length
            = (effectSetCount.effects.map
                (fun e => e.dependencyIds.length + e.handlingTargetIds.length)).sum
          ∧ (∀ e ∈ effectSetCount.effects,
              (∀ d ∈ e.dependencyIds,
                ({ id := e.id ++ "-" ++ d, source := d, target := e.id } : FlowEdge)
                  ∈ convertEffectEdges effectSetCount)
              ∧ ∀ t ∈ e.handlingTargetIds,
                ({ id := e.id ++ "-" ++ t, source := e.id, target := t } : FlowEdge)
                  ∈ convertEffectEdges effectSetCount)
          ∧ (∀ ed ∈ convertEffectEdges effectSetCount, ∃ e ∈ effectSetCount.effects,
              (ed.source ∈ e.dependencyIds ∧ ed.target = e.id)
                ∨ (ed.source = e.id ∧ ed.target ∈ e.handlingTargetIds))
          ∧ (∀ e ∈ effectSetCount.effects, ∀ ed ∈ convertEffectEdges effectSetCount,
              ¬(ed.source = e.id ∧ ed.target ∈ e.dependencyIds)
                ∧ ¬(ed.source ∈ e.handlingTargetIds ∧ ed.target = e.id))) :=
  ⟨by decide,
    convertEffectEdges_spec effectSetCount (by decide) (by decide) (by decide) (by decide)⟩

def effectSelfDep : ComponentNode :=
  ⟨"component-0", "Looper",
    [⟨"prop-0", "onEvent", []⟩], [],
    [⟨"effect-0", ["prop-0"], ["prop-0"]⟩],
    [], []⟩

/-- Counterexample for claim C9 as stated: when a function-typed prop is
both read in the dependency list and invoked in the effect body, its id
appears in dependencyIds and in handlingTargetIds; the handling loop then
emits an edge from the effect to that id — an edge from the effect to one
of its dependencies, which the claim says never occurs. -/
theorem convertEffectEdges_claim_counterexample :
    ∃ e ∈ effectSelfDep.effects, ∃ ed ∈ convertEffectEdges effectSelfDep,
      ed.source = e.id ∧ ed.target ∈ e.dependencyIds := by
  decide

/-! ## Prop edges (claim C10): convertPropEdges of MainView.tsx -/

/-- Flow-view node as consumed by convertPropEdges: id, node type, and for
expanded component nodes the component carried in `data.component`. -/
structure ViewNode where
  id : String
  nodeType : String
  component : Option ComponentNode
deriving DecidableEq, Repr

/-- Per-reference step of convertPropEdges (MainView.tsx): for a setter
reference, look the derived state node id up among the state nodes; for
any other reference, look it up among the state nodes and then the prop
nodes; emit nothing when the lookup fails or when currentPropEdges already
holds an edge with the same id, otherwise emit the single edge
"<ref>-<propId>".  Display-only fields of the edge are omitted. -/
def edgesForRef (currentPropEdges : List FlowEdge)
    (currentStateNodes currentPropNodes : List ViewNode)
    (propId ref : String) : List FlowEdge :=
  if strStartsWith ref "setter" then
    match currentStateNodes.find?
        (fun target => target.id == replaceFirst ref "setter" "state") with
    | none => []
    | some _ =>
      if (currentPropEdges.find? (fun edge => edge.id == ref ++ "-" ++ propId)).isSome
        then []
      else [{ id := ref ++ "-" ++ propId,
              source := replaceFirst ref "setter" "state", target := propId }]
  else
    match (currentStateNodes.find? (fun target => target.id == ref)).orElse
        (fun _ => currentPropNodes.find? (fun target => target.id == ref)) with
    | none => []
    | some _ =>
      if (currentPropEdges.find? (fun edge => edge.id == ref ++ "-" ++ propId)).isSome
        then []
      else [{ id := ref ++ "-" ++ propId, source := ref, target := propId }]

/-- Embedding of convertPropEdges (MainView.tsx): skip nodes that are not
expanded component nodes; for each prop of the carried component and each
of its references, contribute the edges of `edgesForRef`. -/
def convertPropEdges (nodes : List ViewNode) (currentPropEdges : List FlowEdge)
    (currentStateNodes currentPropNodes : List ViewNode) : List FlowEdge :=
  nodes.flatMap (fun node =>
    if node.nodeType == "expanded" then
      match node.component with
      | some component =>
        component.props.flatMap (fun prop =>
          prop.references.flatMap
            (edgesForRef currentPropEdges currentStateNodes currentPropNodes prop.id))
      | none => []
    else [])

/-- Failure of the target lookup of convertPropEdges for one reference:
for a setter reference no state node carries the derived state id; for any
other reference neither a state node nor a prop node carries the
referenced id. -/
def unresolvedRef (currentStateNodes currentPropNodes : List ViewNode)
    (ref : String) : Bool :=
  if strStartsWith ref "setter" then
    (currentStateNodes.find?
      (fun target => target.id == replaceFirst ref "setter" "state")).isNone
  else
    (currentStateNodes.find? (fun target => target.id == ref)).isNone
      && (currentPropNodes.find? (fun target => target.id == ref)).isNone

theorem edgesForRef_id_fresh (currentPropEdges : List FlowEdge)
    (currentStateNodes currentPropNodes : List ViewNode) (propId ref : String) :
    ∀ ed ∈ edgesForRef currentPropEdges currentStateNodes currentPropNodes propId ref,
      ∀ old ∈ currentPropEdges, ed.id ≠ old.id := by
  intro ed hed old hold
  unfold edgesForRef at hed
  by_cases hs : strStartsWith ref "setter" = true
  · rw [if_pos hs] at hed
    split at hed
    · cases hed
    · split at hed
      · cases hed
      · rename_i hdup
        rw [List.mem_singleton] at hed
        subst hed
        intro heq
        rw [List.find?_isSome] at hdup
        exact hdup ⟨old, hold, by simp only at heq; simp [← heq]⟩
  · rw [if_neg hs] at hed
    split at hed
    · cases hed
    · split at hed
      · cases hed
      · rename_i hdup
        rw [List.mem_singleton] at hed
        subst hed
        intro heq
        rw [List.find?_isSome] at hdup
        exact hdup ⟨old, hold, by simp only at heq; simp [← heq]⟩

/-- Claim C10: convertPropEdges never emits an edge whose id already
occurs among the supplied current prop edges, and a reference whose target
lookup fails contributes no edge at all — the unresolved reference is
silently omitted (the embedding is a total function returning a plain
list, mirroring the early `return` of the source, so no error is raised). -/
theorem convertPropEdges_spec (nodes : List ViewNode)
    (currentPropEdges : List FlowEdge)
    (currentStateNodes currentPropNodes : List ViewNode)
    (propId ref : String)
    (hunres : unresolvedRef currentStateNodes currentPropNodes ref = true) :
    (∀ ed ∈ convertPropEdges nodes currentPropEdges currentStateNodes currentPropNodes,
        ∀ old ∈ currentPropEdges, ed.id ≠ old.id)
      ∧ edgesForRef currentPropEdges currentStateNodes currentPropNodes propId ref
          = [] := by
  constructor
  · intro ed hed old hold
    rw [convertPropEdges, List.mem_flatMap] at hed
    obtain ⟨node, -, hmem⟩ := hed
    split at hmem
    · split at hmem
      · rw [List.mem_flatMap] at hmem
        obtain ⟨prop, -, hmem2⟩ := hmem
        rw [List.mem_flatMap] at hmem2
        obtain ⟨r, -, hmem3⟩ := hmem2
        exact edgesForRef_id_fresh currentPropEdges currentStateNodes currentPropNodes
          prop.id r ed hmem3 old hold
      · cases hmem
    · cases hmem
  · unfold edgesForRef
    unfold unresolvedRef at hunres
    by_cases hs : strStartsWith ref "setter" = true
    · rw [if_pos hs] at hunres ⊢
      rw [Option.isNone_iff_eq_none] at hunres
      rw [hunres]
    · rw [if_neg hs] at hunres ⊢
      rw [Bool.and_eq_true, Option.isNone_iff_eq_none, Option.isNone_iff_eq_none] at hunres
      rw [hunres.1]
      simp only [Option.orElse]
      rw [hunres.2]

/-- Witness for claim C10 at a concrete flow state: one expanded component
node whose prop references a state that is present and a reference id that
resolves to no node. -/
theorem convertPropEdges_spec_witness :
    unresolvedRef [⟨"state-0", "state", none⟩] [] "state-9" = true
      ∧ ((∀ ed ∈ convertPropEdges
              [⟨"component-0", "expanded",
                some ⟨"component-0", "A", [⟨"prop-0", "x", ["state-0", "state-9"]⟩],
                  [⟨"state-0", "s"⟩], [], [], []⟩⟩]
              [⟨"state-0-prop-9", "state-0", "prop-9"⟩]
              [⟨"state-0", "state", none⟩] [],
            ∀ old ∈ [(⟨"state-0-prop-9", "state-0", "prop-9"⟩ : FlowEdge)],
              ed.id ≠ old.id)
          ∧ edgesForRef [⟨"state-0-prop-9", "state-0", "prop-9"⟩]
              [⟨"state-0", "state", none⟩] [] "prop-0" "state-9" = []) :=
  ⟨by decide,
    convertPropEdges_spec
      [⟨"component-0", "expanded",
        some ⟨"component-0", "A", [⟨"prop-0", "x", ["state-0", "state-9"]⟩],
          [⟨"state-0", "s"⟩], [], [], []⟩⟩]
      [⟨"state-0-prop-9", "state-0", "prop-9"⟩]
      [⟨"state-0", "state", none⟩] [] "prop-0" "state-9" (by decide)⟩

/-! ## Component edges (claim C6): the children and falseChildren loops of
the MainView effect body -/

/-- Edge id template of the component-edge loops in MainView.tsx. -/
def componentEdgeId (parentId childId : String) : String :=
  parentId ++ "-" ++ childId

/-- Embedding of the children loop: one edge per (component, child) pair,
source the component, target the child. -/
def childrenEdges (g : Graph) : List FlowEdge :=
  g.flatMap (fun component =>
    component.children.map (fun child =>
      { id := componentEdgeId component.id child,
        source := component.id, target := child }))

/-- Embedding of the falseChildren loop: one (animated) edge per
(component, false child) pair. -/
def falseChildrenEdges (g : Graph) : List FlowEdge :=
  g.flatMap (fun component =>
    component.falseChildren.map (fun child =>
      { id := componentEdgeId component.id child,
        source := component.id, target := child }))

/-- Modelled from the spec: the component-id convention of the id scheme:
the "component-" kind tag followed by a nonempty digit string. -/
def isComponentId (s : String) : Bool :=
  "component-".data.isPrefixOf s.data
    && (s.data.drop 10).all Char.isDigit && !(s.data.drop 10).isEmpty

theorem digits_dash_split {da db : List Char}
    (hda : ∀ c ∈ da, c.isDigit = true) (hdb : ∀ c ∈ db, c.isDigit = true)
    {r r2 : List Char} (heq : da ++ '-' :: r = db ++ '-' :: r2) :
    da = db ∧ r = r2 := by
  induction da generalizing db with
  | nil =>
    cases db with
    | nil => simpa using heq
    | cons b bs =>
      rw [List.nil_append, List.cons_append] at heq
      injection heq with h1 h2
      have hdig : ('-' : Char).isDigit = true := h1 ▸ hdb b (by simp)
      exact absurd hdig (by decide)
  | cons a as ih =>
    cases db with
    | nil =>
      rw [List.cons_append, List.nil_append] at heq
      injection heq with h1 h2
      have hdig : ('-' : Char).isDigit = true := h1 ▸ hda a (by simp)
      exact absurd hdig (by decide)
    | cons b bs =>
      rw [List.cons_append, List.cons_append] at heq
      injection heq with h1 h2
      obtain ⟨h3, h4⟩ := ih (fun c hc => hda c (by simp [hc]))
        (fun c hc => hdb c (by simp [hc])) h2
      exact ⟨by rw [h1, h3], h4⟩

theorem isComponentId_shape {s : String} (h : isComponentId s = true) :
    ∃ d, s.data = "component-".data ++ d ∧ ∀ c ∈ d, c.isDigit = true := by
  unfold isComponentId at h
  simp only [Bool.and_eq_true] at h
  obtain ⟨⟨hpre, hall⟩, -⟩ := h
  rw [List.isPrefixOf_iff_prefix] at hpre
  obtain ⟨d, hd⟩ := hpre
  have hdrop : s.data.drop 10 = d := by
    rw [← hd]
    have hlen : ("component-".data).length = 10 := by decide
    rw [← hlen, List.drop_left]
  refine ⟨d, hd.symm, ?_⟩
  intro c hc
  rw [List.all_eq_true] at hall
  exact hall c (hdrop ▸ hc)

theorem string_append_dash_data (a b : String) :
    (a ++ "-" ++ b).data = a.data ++ '-' :: b.data := by
  rw [String.data_append, String.data_append]
  rw [List.append_assoc]
  rfl

theorem componentEdgeId_inj {a b a2 b2 : String}
    (ha : isComponentId a = true) (hb : isComponentId b = true)
    (ha2 : isComponentId a2 = true) (hb2 : isComponentId b2 = true)
    (heq : componentEdgeId a b = componentEdgeId a2 b2) : a = a2 ∧ b = b2 := by
  obtain ⟨da, hda, hdalla⟩ := isComponentId_shape ha
  obtain ⟨da2, hda2, hdalla2⟩ := isComponentId_shape ha2
  have hdata : (a ++ "-" ++ b).data = (a2 ++ "-" ++ b2).data := by
    unfold componentEdgeId at heq
    rw [heq]
  rw [string_append_dash_data, string_append_dash_data, hda, hda2,
    List.append_assoc, List.append_assoc] at hdata
  have hcancel := List.append_cancel_left hdata
  obtain ⟨hd, hr⟩ := digits_dash_split hdalla hdalla2 hcancel
  constructor
  · apply String.ext
    rw [hda, hda2, hd]
  · exact String.ext hr

/-- Claim C6: with the spec-modelled graph invariants — children and
falseChildren of every component are disjoint, entity ids are unique, and
component ids follow the "component-<n>" convention (as do the child
references) — no edge id built by the children loop of MainView collides
with an edge id built by the falseChildren loop. -/
theorem componentEdges_no_collision (g : Graph)
    (hids : ∀ c ∈ g, isComponentId c.id = true
        ∧ ∀ x ∈ c.children ++ c.falseChildren, isComponentId x = true)
    (huniq : ∀ c ∈ g, ∀ d ∈ g, c.id = d.id → c = d)
    (hdisj : ∀ c ∈ g, ∀ x ∈ c.children, x ∉ c.falseChildren) :
    ∀ e ∈ childrenEdges g, ∀ e2 ∈ falseChildrenEdges g, e.id ≠ e2.id := by
  intro e he e2 he2 heq
  rw [childrenEdges, List.mem_flatMap] at he
  obtain ⟨c, hc, hce⟩ := he
  obtain ⟨ch, hch, rfl⟩ := List.mem_map.mp hce
  rw [falseChildrenEdges, List.mem_flatMap] at he2
  obtain ⟨c2, hc2, hce2⟩ := he2
  obtain ⟨fc, hfc, rfl⟩ := List.mem_map.mp hce2
  simp only at heq
  have hinj := componentEdgeId_inj (hids c hc).1
    ((hids c hc).2 ch (List.mem_append_left _ hch))
    (hids c2 hc2).1
    ((hids c2 hc2).2 fc (List.mem_append_right _ hfc)) heq
  have hcc : c = c2 := huniq c hc c2 hc2 hinj.1
  subst hcc
  exact hdisj c hc ch hch (hinj.2 ▸ hfc)

def parentP : ComponentNode :=
  ⟨"component-0", "P", [], [], [], ["component-1"], ["component-2"]⟩

def childQ : ComponentNode := ⟨"component-1", "Q", [], [], [], [], []⟩

def childS : ComponentNode := ⟨"component-2", "S", [], [], [], [], []⟩

def edgeGraph : Graph := [parentP, childQ, childS]

/-- Witness for claim C6 at a parent with one child and one distinct false
child. -/
theorem componentEdges_no_collision_witness :
    (∀ c ∈ edgeGraph, isComponentId c.id = true
        ∧ ∀ x ∈ c.children ++ c.falseChildren, isComponentId x = true)
      ∧ (∀ c ∈ edgeGraph, ∀ d ∈ edgeGraph, c.id = d.id → c = d)
      ∧ (∀ c ∈ edgeGraph, ∀ x ∈ c.children, x ∉ c.falseChildren)
      ∧ (∀ e ∈ childrenEdges edgeGraph, ∀ e2 ∈ falseChildrenEdges edgeGraph,
          e.id ≠ e2.id) :=
  ⟨by decide, by decide, by decide,
    componentEdges_no_collision edgeGraph (by decide) (by decide) (by decide)⟩

/-! ## Serialization round-trip (claim C8)

`toJson` lives in the HookExtractor module, absent from the provided
sources; it is modelled from the spec's output schema: an object holding
`componentList`, each component carrying id, name, children and
falseChildren as id references, and the owned props/states/effects.
Parsing back is the consuming layer's `JSON.parse` step as used by
App.tsx, modelled structurally on the same schema. -/

/-- JSON-compatible values; strings, arrays and objects suffice for the
serialized graph schema. -/
inductive Json where
  | str : String → Json
  | arr : List Json → Json
  | obj : List (String × Json) → Json

/-- Modelled from the spec: serialization of one PropEntity. -/
def propToJson (p : PropEntity) : Json :=
  .obj [("id", .str p.id), ("name", .str p.name),
        ("references", .arr (p.references.map .str))]

/-- Modelled from the spec: serialization of one StateEntity. -/
def stateToJson (s : StateEntity) : Json :=
  .obj [("id", .str s.id), ("name", .str s.name)]

/-- Modelled from the spec: serialization of one EffectEntity. -/
def effectToJson (e : EffectEntity) : Json :=
  .obj [("id", .str e.id),
        ("dependencyIds", .arr (e.dependencyIds.map .str)),
        ("handlingTargetIds", .arr (e.handlingTargetIds.map .str))]

/-- Modelled from the spec: serialization of one component; children and
falseChildren are rendered as id references to avoid duplicating full
subobjects. -/
def componentToJson (c : ComponentNode) : Json :=
  .obj [("id", .str c.id), ("name", .str c.name),
        ("children", .arr (c.children.map .str)),
        ("falseChildren", .arr (c.falseChildren.map .str)),
        ("props", .arr (c.props.map propToJson)),
        ("states", .arr (c.states.map stateToJson)),
        ("effects", .arr (c.effects.map effectToJson))]

/-- Modelled from the spec: `toJson()` — the serialized graph value. -/
def toJson (g : Graph) : Json :=
  .obj [("componentList", .arr (g.map componentToJson))]

def parseString : Json → Option String
  | .str s => some s
  | _ => none

def parseStringList : Json → Option (List String)
  | .arr xs => xs.mapM parseString
  | _ => none

def parseProp : Json → Option PropEntity
  | .obj [("id", .str i), ("name", .str n), ("references", refs)] =>
    (parseStringList refs).map (fun rs => ⟨i, n, rs⟩)
  | _ => none

def parseState : Json → Option StateEntity
  | .obj [("id", .str i), ("name", .str n)] => some ⟨i, n⟩
  | _ => none

def parseEffect : Json → Option EffectEntity
  | .obj [("id", .str i), ("dependencyIds", ds), ("handlingTargetIds", ts)] => do
    let ds2 ← parseStringList ds
    let ts2 ← parseStringList ts
    pure ⟨i, ds2, ts2⟩
  | _ => none

def parseComponent : Json → Option ComponentNode
  | .obj [("id", .str i), ("name", .str n), ("children", ch),
      ("falseChildren", fc), ("props", .arr ps), ("states", .arr ss),
      ("effects", .arr es)] => do
    let ch2 ← parseStringList ch
    let fc2 ← parseStringList fc
    let ps2 ← ps.mapM parseProp
    let ss2 ← ss.mapM parseState
    let es2 ← es.mapM parseEffect
    pure ⟨i, n, ps2, ss2, es2, ch2, fc2⟩
  | _ => none

/-- Structural re-parse of a serialized graph, as the consuming layer
rebuilds it from `JSON.parse` output. -/
def parseGraph : Json → Option Graph
  | .obj [("componentList", .arr comps)] => comps.mapM parseComponent
  | _ => none

theorem parseStringList_round (l : List String) :
    parseStringList (.arr (l.map .str)) = some l := by
  show (l.map Json.str).mapM parseString = some l
  induction l with
  | nil => rfl
  | cons x xs ih =>
    rw [List.map_cons, List.mapM_cons, ih]
    rfl

theorem parseProp_round (p : PropEntity) :
    parseProp (propToJson p) = some p := by
  show (parseStringList (.arr (p.references.map .str))).map
      (fun rs => ⟨p.id, p.name, rs⟩) = some p
  rw [parseStringList_round]
  rfl

theorem parseState_round (s : StateEntity) :
    parseState (stateToJson s) = some s := rfl

theorem parseEffect_round (e : EffectEntity) :
    parseEffect (effectToJson e) = some e := by
  show (do
    let ds2 ← parseStringList (.arr (e.dependencyIds.map .str))
    let ts2 ← parseStringList (.arr (e.handlingTargetIds.map .str))
    pure (⟨e.id, ds2, ts2⟩ : EffectEntity)) = some e
  rw [parseStringList_round, parseStringList_round]
  rfl

theorem mapM_round {α : Type} {f : α → Json} {p : Json → Option α}
    (hf : ∀ a, p (f a) = some a) (l : List α) :
    (l.map f).mapM p = some l := by
  induction l with
  | nil => rfl
  | cons x xs ih =>
    rw [List.map_cons, List.mapM_cons, hf, ih]
    rfl

theorem parseComponent_round (c : ComponentNode) :
    parseComponent (componentToJson c) = some c := by
  show (do
    let ch2 ← parseStringList (.arr (c.children.map .str))
    let fc2 ← parseStringList (.arr (c.falseChildren.map .str))
    let ps2 ← (c.props.map propToJson).mapM parseProp
    let ss2 ← (c.states.map stateToJson).mapM parseState
    let es2 ← (c.effects.map effectToJson).mapM parseEffect
    pure (⟨c.id, c.name, ps2, ss2, es2, ch2, fc2⟩ : ComponentNode)) = some c
  rw [parseStringList_round, parseStringList_round,
    mapM_round parseProp_round, mapM_round parseState_round,
    mapM_round parseEffect_round]
  rfl

/-- Claim C8: the serialized graph, re-parsed, reproduces exactly the
graph of ids and edge lists it was derived from; hence re-serializing the
parsed graph reproduces structurally equal output. -/
theorem toJson_roundtrip (g : Graph) :
    parseGraph (toJson g) = some g
      ∧ ∀ g2, parseGraph (toJson g) = some g2 → toJson g2 = toJson g := by
  have h : parseGraph (toJson g) = some g := by
    show (g.map componentToJson).mapM parseComponent = some g
    exact mapM_round parseComponent_round g
  refine ⟨h, ?_⟩
  intro g2 h2
  rw [h] at h2
  injection h2 with h3
  rw [h3]

end HookExtractorProof
